import Mathlib

/-!
Verification of the InducedSubgraphsViewer model layer (`model/graph_db.py`)
and its controller call sites.

The database is a TinyDB instance holding heterogeneous documents; we embed
it as a list of documents in insertion order (TinyDB returns search results
in document-id order, inserts append, removals keep the order of the rest).

The induced-subgraph search delegates the actual matching to networkx's
`GraphMatcher.subgraph_isomorphisms_iter`; that matcher is third-party code
not present in this repository, so it is modelled from the spec (§4.3):
it yields every injective total function from the pattern's vertices to the
host's vertices that preserves adjacency and non-adjacency exactly
(including self-loop counts, hence the unrestricted pairs below), and for a
zero-vertex pattern it yields exactly the empty mapping.
-/

/-- A TinyDB document: one of the four document types used by `graph_db.py`. -/
inductive Doc where
  | node (g u : ℕ) (x y : ℤ)
  | edge (g u v : ℕ)
  | iso (g : ℕ)
  | props (g : ℕ) (name : String)
deriving DecidableEq, Repr

/-- The value of the `g_id` field of a document (every document type has one). -/
def Doc.gId : Doc → ℕ
  | .node g _ _ _ => g
  | .edge g _ _ => g
  | .iso g => g
  | .props g _ => g

/-- Rewrite the `g_id` field of a document (the `y = dict(x); y['g_id'] = g2_id`
step of `erase_graph`). -/
def Doc.setG (g2 : ℕ) : Doc → Doc
  | .node _ u x y => .node g2 u x y
  | .edge _ u v => .edge g2 u v
  | .iso _ => .iso g2
  | .props _ n => .props g2 n

/-- Whether a document has type `iso` (the `q.type != 'iso'` filter). -/
def Doc.isIso : Doc → Bool
  | .iso _ => true
  | _ => false

/-- The database: documents in insertion order. -/
abbrev DB := List Doc

/-- Whether a document is a `node` document of graph `g` with node id `u`. -/
def isNodeDoc (g u : ℕ) : Doc → Bool
  | .node g0 u0 _ _ => g0 = g && u0 = u
  | _ => false

/-- Whether a document is a `node` document of graph `g` (any node id). -/
def isNodeOf (g : ℕ) : Doc → Bool
  | .node g0 _ _ _ => g0 = g
  | _ => false

/-- Whether a document is the `edge` document of graph `g` joining `u` and `v`
(as stored, i.e. in the stored orientation). -/
def isEdgeDoc (g u v : ℕ) : Doc → Bool
  | .edge g0 u0 v0 => g0 = g && u0 = u && v0 = v
  | _ => false

/-- Model of `add_node(g_id, u_id, x, y)`: insert a `node` document unless one with the
same graph and node ids is already present. -/
def add_node (db : DB) (g u : ℕ) (x y : ℤ) : DB × Bool :=
  if (db.filter (isNodeDoc g u)).length = 0 then
    (db ++ [Doc.node g u x y], true)
  else
    (db, false)

/-- Model of `add_edge(g_id, u_id, v_id)`: refuse self-loops, normalise the pair so the
smaller id comes first, require both endpoints to be nodes of the graph
(the search counts `node` documents whose node id is one of the two endpoints
and demands exactly 2), refuse duplicates, then insert an `edge` document. -/
def add_edge (db : DB) (g u v : ℕ) : DB × Bool :=
  if u = v then (db, false)
  else
    let u' := if v < u then v else u
    let v' := if v < u then u else v
    if (db.filter (fun d => isNodeDoc g u' d || isNodeDoc g v' d)).length ≠ 2 then
      (db, false)
    else if (db.filter (isEdgeDoc g u' v')).length = 0 then
      (db ++ [Doc.edge g u' v'], true)
    else
      (db, false)

/-- Model of `remove_node(g_id, u_id)`: remove the matching `node` documents; if any was
removed, also remove every `edge` document of the graph incident to `u`. -/
def remove_node (db : DB) (g u : ℕ) : DB × Bool :=
  let removed := db.filter (isNodeDoc g u)
  let db1 := db.filter (fun d => !isNodeDoc g u d)
  if removed.length > 0 then
    (db1.filter (fun d => match d with
      | .edge g0 u0 v0 => !(g0 = g && (u0 = u || v0 = u))
      | _ => true), true)
  else
    (db, false)

/-- Model of `remove_edge(g_id, u_id, v_id)`: refuse self-loops, normalise the pair,
remove the matching `edge` documents, report whether any was removed. -/
def remove_edge (db : DB) (g u v : ℕ) : DB × Bool :=
  if u = v then (db, false)
  else
    let u' := if v < u then v else u
    let v' := if v < u then u else v
    let removed := db.filter (isEdgeDoc g u' v')
    (db.filter (fun d => !isEdgeDoc g u' v' d), removed.length > 0)

/-- Model of `remove_graph(g_id)`: remove every document whose `g_id` field equals `g`. -/
def remove_graph (db : DB) (g : ℕ) : DB :=
  db.filter (fun d => d.gId ≠ g)

/-- Whether a document is the `properties` document of graph `g`. -/
def isPropsOf (g : ℕ) : Doc → Bool
  | .props g0 _ => g0 = g
  | _ => false

/-- TinyDB `upsert` of `{'type': 'properties', 'g_id': g, 'name': name}` against
the condition `type == 'properties' and g_id == g`: update all matching
documents, or insert the document if none matches. -/
def upsertProps (db : DB) (g : ℕ) (name : String) : DB :=
  if db.any (isPropsOf g) then
    db.map (fun d => if isPropsOf g d then Doc.props g name else d)
  else
    db ++ [Doc.props g name]

/-- The `g_id` of a `node` document, `none` for the other document types. -/
def nodeGId : Doc → Option ℕ
  | .node g _ _ _ => some g
  | _ => none

/-- The outcome of `erase_graph`: the Python function returns `False` or the id
of the erased graph. -/
inductive EraseResult where
  | fls
  | gid (g : ℕ)
deriving DecidableEq, Repr

/-- Model of `erase_graph(g1_id, g2_id, name)`: if the two ids are equal return `False`;
if `g2_id` is `None` it becomes one plus the maximum `g_id` over all `node`
documents (Python's `max` raises `ValueError` on an empty sequence — modelled
as the `Except.error` branch); then every document of `g2` is removed, every
non-`iso` document of `g1` is copied with its `g_id` replaced by `g2` and
appended, and if a name is given the `properties` document of `g2` is upserted. -/
def erase_graph (db : DB) (g1 : ℕ) (g2? : Option ℕ) (name : Option String) :
    Except String (DB × EraseResult) :=
  if some g1 = g2? then .ok (db, .fls)
  else
    let proceed : ℕ → DB × EraseResult := fun g2 =>
      let db1 := remove_graph db g2
      let copies := (db1.filter (fun d => d.gId = g1 && !d.isIso)).map (Doc.setG g2)
      let db2 := db1 ++ copies
      let db3 := match name with
        | none => db2
        | some nm => upsertProps db2 g2 nm
      (db3, .gid g2)
    match g2? with
    | some g2 => .ok (proceed g2)
    | none =>
      match (db.filterMap nodeGId).max? with
      | none => .error "ValueError: max() arg is an empty sequence"
      | some mx => .ok (proceed (mx + 1))

/-! ## The networkx graph built by `_get_graph` -/

/-- A networkx undirected graph: node list in insertion order (nodes are a
dict in networkx, hence no duplicates), and edge list in insertion order with
each undirected edge stored once, normalised so the smaller endpoint comes
first (networkx stores each edge once in its adjacency structure; a self-loop
`(u, u)` is allowed and stored once). -/
structure NXGraph where
  nodes : List ℕ
  edges : List (ℕ × ℕ)
deriving DecidableEq, Repr

/-- Normalised form of an undirected edge: smaller endpoint first. -/
def normPair (u v : ℕ) : ℕ × ℕ := if v < u then (v, u) else (u, v)

/-- Model of networkx `G.add_node(u)`: append the node unless already present. -/
def addNodeNX (g : NXGraph) (u : ℕ) : NXGraph :=
  if u ∈ g.nodes then g else { g with nodes := g.nodes ++ [u] }

/-- Model of networkx `G.add_edge(u, v)`: make sure both endpoints are nodes (networkx silently
adds missing endpoints), then store the normalised pair unless that undirected
edge is already present. -/
def addEdgeNX (g : NXGraph) (u v : ℕ) : NXGraph :=
  if normPair u v ∈ (addNodeNX (addNodeNX g u) v).edges then addNodeNX (addNodeNX g u) v
  else { nodes := (addNodeNX (addNodeNX g u) v).nodes,
         edges := (addNodeNX (addNodeNX g u) v).edges ++ [normPair u v] }

/-- Adjacency test of the networkx graph (undirected). -/
def hasEdge (g : NXGraph) (u v : ℕ) : Bool := decide (normPair u v ∈ g.edges)

/-- Model of `_get_graph(g_id)`: collect the node ids of the `node` documents and the
endpoint pairs of the `edge` documents of the graph, then build a networkx
graph with `add_nodes_from` followed by `add_edges_from`. No validation is
performed: unknown endpoints are silently added as nodes. -/
def get_graph (db : DB) (gid : ℕ) : NXGraph :=
  let nodes := db.filterMap (fun d => match d with
    | .node g u _ _ => if g = gid then some u else none
    | _ => none)
  let edges := db.filterMap (fun d => match d with
    | .edge g u v => if g = gid then some (u, v) else none
    | _ => none)
  let g0 := nodes.foldl addNodeNX ⟨[], []⟩
  edges.foldl (fun g e => addEdgeNX g e.1 e.2) g0

/-! ## The matcher, modelled from the spec -/

/-- Modelled from the spec: the backtracking matcher is delegated to networkx's
`GraphMatcher.subgraph_isomorphisms_iter`, which is not part of this
repository. Per §4.3 the matcher's contract is the lazy sequence of all
injective total assignments of pattern vertices to host vertices; this
function enumerates every injective assignment of the vertices `ps` to
distinct vertices drawn from `hs`, as association lists. -/
def injAssign : List ℕ → List ℕ → List (List (ℕ × ℕ))
  | [], _ => [[]]
  | p :: ps, hs => hs.flatMap (fun h => (injAssign ps (hs.erase h)).map ((p, h) :: ·))

/-- The induced-isomorphism condition on a complete assignment `m` (pattern
vertex, host vertex): every pair of mapped vertices (the diagonal included,
which is the self-loop count check) has the same adjacency in pattern and
host. -/
def isInducedMap (h p : NXGraph) (m : List (ℕ × ℕ)) : Bool :=
  m.all (fun x => m.all (fun y => hasEdge p x.1 y.1 == hasEdge h x.2 y.2))

/-- Modelled from the spec: the matches yielded by
`GraphMatcher(host, pattern).subgraph_isomorphisms_iter()` — all injective
total assignments of the pattern's vertices to host vertices that preserve
adjacency and non-adjacency exactly (§4.3). For a zero-vertex pattern this is
the single empty mapping. -/
def matchesList (h p : NXGraph) : List (List (ℕ × ℕ)) :=
  (injAssign p.nodes h.nodes).filter (isInducedMap h p)

/-- The vertex subset used by an assignment: `frozenset(gm.keys())` in the
source keys the mapping by host vertices, so this is the set of host-side
values of our pattern-keyed assignment. -/
def image (m : List (ℕ × ℕ)) : Finset ℕ := (m.map Prod.snd).toFinset

/-- One entry of the list returned by `get_induced_subgraphs`. The `nodes`
field is `list(k)` of a frozenset and the `edges` field is the edge list of
`nx.Graph.subgraph(g, k)`; both are listed in unspecified dictionary order,
so they are embedded as finite sets. -/
structure MatchResult where
  subgraph_id : ℕ
  nodes : Finset ℕ
  edges : Finset (ℕ × ℕ)
deriving DecidableEq

/-- The edge list of `nx.Graph.subgraph(g, k)`: networkx restricts to the
nodes of `g` that lie in `k` and keeps exactly the edges with both endpoints
among those. -/
def subgraphEdges (g : NXGraph) (k : Finset ℕ) : List (ℕ × ℕ) :=
  g.edges.filter (fun e =>
    decide (e.1 ∈ k) && e.1 ∈ g.nodes && decide (e.2 ∈ k) && e.2 ∈ g.nodes)

/-- The record assembled for a fresh vertex subset `k` matched by pattern `id`. -/
def mkResult (g : NXGraph) (id : ℕ) (k : Finset ℕ) : MatchResult :=
  ⟨id, k, (subgraphEdges g k).toFinset⟩

/-- The two nested loops of `get_induced_subgraphs`, flattened: process the
(pattern id, assignment) stream in order, threading the `inds` set of
already-seen vertex subsets; a subset already seen is discarded silently. -/
def dedupGo (g : NXGraph) : List (ℕ × List (ℕ × ℕ)) → Finset (Finset ℕ) → List MatchResult
  | [], _ => []
  | (id, m) :: rest, inds =>
    if image m ∈ inds then dedupGo g rest inds
    else mkResult g id (image m) :: dedupGo g rest (insert (image m) inds)

/-- The ids stored with type `iso`, in document order (duplicates kept). -/
def isoIds (db : DB) : List ℕ :=
  db.filterMap (fun d => match d with
    | .iso g => some g
    | _ => none)

/-- The (pattern id, assignment) stream: patterns in `iso`-document order,
each pattern's matches in matcher-yield order. -/
def allMatches (g : NXGraph) (pats : List (ℕ × NXGraph)) : List (ℕ × List (ℕ × ℕ)) :=
  pats.flatMap (fun x => (matchesList g x.2).map (x.1, ·))

/-- Model of `get_induced_subgraphs()`: build the host graph (id 0) and each `iso`
pattern graph from the database, enumerate each pattern's induced matches in
order, and keep the first record for each vertex subset. -/
def get_induced_subgraphs (db : DB) : List MatchResult :=
  let g := get_graph db 0
  dedupGo g (allMatches g ((isoIds db).map (fun i => (i, get_graph db i)))) ∅

/-- The pattern library as (id, graph) pairs, in `iso`-document order. -/
def isoPats (db : DB) : List (ℕ × NXGraph) :=
  (isoIds db).map (fun i => (i, get_graph db i))

/-- Example database: host graph 0 is the path 1–2–3; pattern graph 1 is a
single edge on vertices 10 and 11 and is marked `iso`. -/
def exDB1 : DB := [Doc.node 0 1 0 0, Doc.node 0 2 0 0, Doc.node 0 3 0 0,
  Doc.edge 0 1 2, Doc.edge 0 2 3,
  Doc.node 1 10 0 0, Doc.node 1 11 0 0, Doc.edge 1 10 11, Doc.iso 1]

/-- Example database holding a single `iso` document for id 1, which has no
other documents: the host has zero vertices and the pattern graph is empty. -/
def exDB0 : DB := [Doc.iso 1]

/-- Example database with a malformed host: an edge document (0, 1, 4)
although graph 0 has no node document for vertex 4; pattern graph 1 is the
single vertex 10, marked `iso`. -/
def exDBmal : DB := [Doc.node 0 1 0 0, Doc.node 0 2 0 0, Doc.node 0 3 0 0,
  Doc.edge 0 1 4, Doc.iso 1, Doc.node 1 10 0 0]

/-- Per-document well-formedness of the editing layer's storage: an `edge`
document is normalised (strictly increasing endpoints, hence no self-loop and
a single stored orientation per unordered pair), is not duplicated, and both
its endpoints are stored as `node` documents of the same graph; a `node`
document is not duplicated. -/
def chk (db : DB) : Doc → Bool
  | .edge g u v => decide (u < v) && db.any (isNodeDoc g u) && db.any (isNodeDoc g v)
      && decide (db.countP (isEdgeDoc g u v) ≤ 1)
  | .node g u _ _ => decide (db.countP (isNodeDoc g u) ≤ 1)
  | _ => true

/-- The storage invariant of the editing layer: every document passes `chk`.
In particular the stored edge set has no self-loop, no two edges with the
same unordered vertex pair, and all endpoints stored as nodes. -/
def DBInv (db : DB) : Prop := ∀ d ∈ db, chk db d = true

instance (db : DB) : Decidable (DBInv db) :=
  inferInstanceAs (Decidable (∀ d ∈ db, chk db d = true))

/-- One invocation of the four mutators of the editing layer. -/
inductive EditOp where
  | addN (g u : ℕ) (x y : ℤ)
  | addE (g u v : ℕ)
  | rmN (g u : ℕ)
  | rmE (g u v : ℕ)
deriving DecidableEq, Repr

/-- Apply one editing operation to a database state (`add_node`, `add_edge`,
`remove_node`, `remove_edge` in turn). -/
def applyOp (db : DB) : EditOp → DB
  | .addN g u x y => (add_node db g u x y).1
  | .addE g u v => (add_edge db g u v).1
  | .rmN g u => (remove_node db g u).1
  | .rmE g u v => (remove_edge db g u v).1

/-! ## Theory of the matcher -/

/-- Characterisation of `injAssign`: the assignments of `ps` into a
duplicate-free pool `hs` are exactly the association lists whose keys are
`ps` in order, whose values are pairwise distinct, and whose values are drawn
from `hs`. -/
theorem injAssign_mem {ps hs : List ℕ} (hnd : hs.Nodup) {m : List (ℕ × ℕ)} :
    m ∈ injAssign ps hs ↔
      m.map Prod.fst = ps ∧ (m.map Prod.snd).Nodup ∧ ∀ x ∈ m, x.2 ∈ hs := by
  induction ps generalizing hs m with
  | nil =>
    simp only [injAssign, List.mem_singleton]
    constructor
    · rintro rfl; simp
    · rintro ⟨hfst, -, -⟩
      exact List.map_eq_nil_iff.1 hfst
  | cons p ps ih =>
    simp only [injAssign, List.mem_flatMap, List.mem_map]
    constructor
    · rintro ⟨h, hh, m', hm', rfl⟩
      obtain ⟨hfst, hsnd, hmem⟩ := (ih (hnd.erase h)).1 hm'
      refine ⟨by simp [hfst], ?_, ?_⟩
      · simp only [List.map_cons]
        refine List.nodup_cons.2 ⟨?_, hsnd⟩
        intro hcon
        obtain ⟨x, hx, hxeq⟩ := List.mem_map.1 hcon
        have hxe := hmem x hx
        rw [hxeq] at hxe
        exact (hnd.mem_erase_iff.1 hxe).1 rfl
      · intro x hx
        rcases List.mem_cons.1 hx with rfl | hx'
        · exact hh
        · exact List.erase_subset h hs (hmem x hx')
    · rintro ⟨hfst, hsnd, hmem⟩
      cases m with
      | nil => simp at hfst
      | cons x m' =>
        simp only [List.map_cons, List.cons.injEq] at hfst
        obtain ⟨hx1, hfst'⟩ := hfst
        simp only [List.map_cons, List.nodup_cons] at hsnd
        refine ⟨x.2, hmem x (List.mem_cons_self x m'), m', ?_, ?_⟩
        · refine (ih (hnd.erase x.2)).2 ⟨hfst', hsnd.2, ?_⟩
          intro y hy
          have hyhs := hmem y (List.mem_cons_of_mem x hy)
          have hne : y.2 ≠ x.2 := by
            intro he
            exact hsnd.1 (he ▸ List.mem_map_of_mem Prod.snd hy)
          exact hnd.mem_erase_iff.2 ⟨hne, hyhs⟩
        · cases x
          simp only at hx1
          rw [hx1]

/-- Lookup in an association list, defaulting to 0 for absent keys
(only ever used on present keys). -/
def alookup : List (ℕ × ℕ) → ℕ → ℕ
  | [], _ => 0
  | x :: m, q => if q = x.1 then x.2 else alookup m q

theorem alookup_mem {m : List (ℕ × ℕ)} {p : ℕ} (h : p ∈ m.map Prod.fst) :
    (p, alookup m p) ∈ m := by
  induction m with
  | nil => simp at h
  | cons x m ih =>
    by_cases hp : p = x.1
    · subst hp
      simp only [alookup, if_pos rfl]
      exact List.mem_cons_self x m
    · simp only [List.map_cons, List.mem_cons] at h
      rcases h with h | h
      · exact absurd h hp
      · simp only [alookup, if_neg hp]
        exact List.mem_cons_of_mem x (ih h)

theorem alookup_eq {m : List (ℕ × ℕ)} (hnd : (m.map Prod.fst).Nodup) {p v : ℕ}
    (hm : (p, v) ∈ m) : alookup m p = v := by
  induction m with
  | nil => simp at hm
  | cons x m ih =>
    simp only [List.map_cons, List.nodup_cons] at hnd
    rcases List.mem_cons.1 hm with heq | hm'
    · rw [← heq]
      simp [alookup]
    · have hne : p ≠ x.1 := by
        intro he
        exact hnd.1 (he ▸ (List.mem_map_of_mem Prod.fst hm' : (p, v).1 ∈ m.map Prod.fst))
      simp only [alookup, if_neg hne]
      exact ih hnd.2 hm'

theorem alookup_snd_inj {m : List (ℕ × ℕ)} (hnd : (m.map Prod.snd).Nodup)
    {p₁ p₂ v : ℕ} (h₁ : (p₁, v) ∈ m) (h₂ : (p₂, v) ∈ m) : p₁ = p₂ := by
  induction m with
  | nil => simp at h₁
  | cons x m ih =>
    simp only [List.map_cons, List.nodup_cons] at hnd
    rcases List.mem_cons.1 h₁ with he₁ | hm₁ <;> rcases List.mem_cons.1 h₂ with he₂ | hm₂
    · exact congrArg Prod.fst (he₁.trans he₂.symm)
    · exfalso
      have hv : v ∈ List.map Prod.snd m := List.mem_map.2 ⟨(p₂, v), hm₂, rfl⟩
      have hx2 : x.2 = v := by rw [← he₁]
      exact hnd.1 (hx2.symm ▸ hv)
    · exfalso
      have hv : v ∈ List.map Prod.snd m := List.mem_map.2 ⟨(p₁, v), hm₁, rfl⟩
      have hx2 : x.2 = v := by rw [← he₂]
      exact hnd.1 (hx2.symm ▸ hv)
    · exact ih hnd.2 hm₁ hm₂

/-- Unfolding of the induced-isomorphism check. -/
theorem isInducedMap_iff {h p : NXGraph} {m : List (ℕ × ℕ)} :
    isInducedMap h p m = true ↔
      ∀ x ∈ m, ∀ y ∈ m, hasEdge p x.1 y.1 = hasEdge h x.2 y.2 := by
  simp only [isInducedMap, List.all_eq_true, beq_iff_eq]

/-- The property the spec calls isomorphism of the induced subgraph on `S`
with the pattern `p`: an explicit bijection from the pattern's vertices onto
`S` preserving adjacency and non-adjacency exactly. -/
def InducedIso (h p : NXGraph) (S : Finset ℕ) : Prop :=
  ∃ f : ℕ → ℕ,
    Set.BijOn f ↑p.nodes.toFinset ↑S ∧
    ∀ a ∈ p.nodes, ∀ b ∈ p.nodes, hasEdge p a b = hasEdge h (f a) (f b)

/-- Soundness of the matcher: every yielded assignment, read as a function,
is a bijection from the pattern's vertices onto its image preserving
adjacency exactly. -/
theorem matchesList_sound {h p : NXGraph} (hp : p.nodes.Nodup) (hh : h.nodes.Nodup)
    {m : List (ℕ × ℕ)} (hm : m ∈ matchesList h p) :
    (Set.BijOn (alookup m) ↑p.nodes.toFinset ↑(image m) ∧
      ∀ a ∈ p.nodes, ∀ b ∈ p.nodes,
        hasEdge p a b = hasEdge h (alookup m a) (alookup m b)) := by
  obtain ⟨hm1, hm2⟩ := List.mem_filter.1 hm
  obtain ⟨hfst, hsnd, -⟩ := (injAssign_mem hh).1 hm1
  have hind := isInducedMap_iff.1 hm2
  have hmemkey : ∀ a ∈ p.nodes, (a, alookup m a) ∈ m := by
    intro a ha
    exact alookup_mem (by rw [hfst]; exact ha)
  constructor
  · refine ⟨?_, ?_, ?_⟩
    · intro a ha
      have ha' : a ∈ p.nodes := List.mem_toFinset.1 (Finset.mem_coe.1 ha)
      have hv : alookup m a ∈ m.map Prod.snd :=
        List.mem_map_of_mem Prod.snd (hmemkey a ha')
      simp only [image]
      exact Finset.mem_coe.2 (List.mem_toFinset.2 hv)
    · intro a ha b hb hab
      have ha' : a ∈ p.nodes := List.mem_toFinset.1 (Finset.mem_coe.1 ha)
      have hb' : b ∈ p.nodes := List.mem_toFinset.1 (Finset.mem_coe.1 hb)
      exact alookup_snd_inj hsnd (hmemkey a ha') (hab ▸ hmemkey b hb')
    · intro v hv
      have hv' : v ∈ m.map Prod.snd := by
        simp only [image] at hv
        exact List.mem_toFinset.1 (Finset.mem_coe.1 hv)
      obtain ⟨⟨x1, x2⟩, hx, hxv⟩ := List.mem_map.1 hv'
      dsimp only at hxv
      subst hxv
      have hxk : x1 ∈ p.nodes := by
        rw [← hfst]
        exact List.mem_map_of_mem Prod.fst hx
      exact ⟨x1, Finset.mem_coe.2 (List.mem_toFinset.2 hxk),
        alookup_eq (by rw [hfst]; exact hp) hx⟩
  · intro a ha b hb
    exact hind (a, alookup m a) (hmemkey a ha) (b, alookup m b) (hmemkey b hb)

/-- Completeness of the matcher: every bijection from the pattern's vertices
onto a subset of the host's vertices preserving adjacency exactly is realised
by some yielded assignment with that image. -/
theorem matchesList_complete {h p : NXGraph} (hp : p.nodes.Nodup) (hh : h.nodes.Nodup)
    {S : Finset ℕ} (hSsub : ∀ v ∈ S, v ∈ h.nodes) (hiso : InducedIso h p S) :
    ∃ m ∈ matchesList h p, image m = S := by
  obtain ⟨f, hbij, hadj⟩ := hiso
  refine ⟨p.nodes.map (fun a => (a, f a)), ?_, ?_⟩
  · refine List.mem_filter.2 ⟨(injAssign_mem hh).2 ⟨?_, ?_, ?_⟩, ?_⟩
    · simp [List.map_map, Function.comp_def]
    · have : (p.nodes.map (fun a => (a, f a))).map Prod.snd = p.nodes.map f := by
        simp
      rw [this]
      refine List.Nodup.map_on ?_ hp
      intro x hx y hy hxy
      exact hbij.injOn (by exact_mod_cast List.mem_toFinset.2 hx)
        (by exact_mod_cast List.mem_toFinset.2 hy) hxy
    · intro x hx
      obtain ⟨a, ha, rfl⟩ := List.mem_map.1 hx
      have : f a ∈ (S : Set ℕ) := hbij.mapsTo (by exact_mod_cast List.mem_toFinset.2 ha)
      exact hSsub (f a) (by exact_mod_cast this)
    · refine isInducedMap_iff.2 ?_
      intro x hx y hy
      obtain ⟨a, ha, rfl⟩ := List.mem_map.1 hx
      obtain ⟨b, hb, rfl⟩ := List.mem_map.1 hy
      exact hadj a ha b hb
  · have : (p.nodes.map (fun a => (a, f a))).map Prod.snd = p.nodes.map f := by simp
    rw [image, this]
    ext v
    rw [List.mem_toFinset, List.mem_map]
    constructor
    · rintro ⟨a, ha, rfl⟩
      have : f a ∈ (S : Set ℕ) := hbij.mapsTo (by exact_mod_cast List.mem_toFinset.2 ha)
      exact_mod_cast this
    · intro hv
      obtain ⟨a, ha, hfa⟩ := hbij.surjOn (by exact_mod_cast hv : v ∈ (S : Set ℕ))
      exact ⟨a, List.mem_toFinset.1 (by exact_mod_cast ha), hfa⟩

/-! ## Theory of the aggregator -/

/-- Every record produced by the dedup loop comes from one entry of the
(pattern id, assignment) stream. -/
theorem dedupGo_sound {g : NXGraph} {L : List (ℕ × List (ℕ × ℕ))}
    {inds : Finset (Finset ℕ)} {r : MatchResult} (hr : r ∈ dedupGo g L inds) :
    ∃ x ∈ L, r = mkResult g x.1 (image x.2) := by
  induction L generalizing inds with
  | nil => simp [dedupGo] at hr
  | cons x rest ih =>
    obtain ⟨id, m⟩ := x
    simp only [dedupGo] at hr
    by_cases hk : image m ∈ inds
    · rw [if_pos hk] at hr
      obtain ⟨y, hy, he⟩ := ih hr
      exact ⟨y, List.mem_cons_of_mem _ hy, he⟩
    · rw [if_neg hk] at hr
      rcases List.mem_cons.1 hr with he | hr'
      · exact ⟨(id, m), List.mem_cons_self _ _, he⟩
      · obtain ⟨y, hy, he⟩ := ih hr'
        exact ⟨y, List.mem_cons_of_mem _ hy, he⟩

/-- No produced record has a vertex subset that was already seen on entry. -/
theorem dedupGo_not_seen {g : NXGraph} {L : List (ℕ × List (ℕ × ℕ))}
    {inds : Finset (Finset ℕ)} {r : MatchResult} (hr : r ∈ dedupGo g L inds) :
    r.nodes ∉ inds := by
  induction L generalizing inds with
  | nil => simp [dedupGo] at hr
  | cons x rest ih =>
    obtain ⟨id, m⟩ := x
    simp only [dedupGo] at hr
    by_cases hk : image m ∈ inds
    · rw [if_pos hk] at hr
      exact ih hr
    · rw [if_neg hk] at hr
      rcases List.mem_cons.1 hr with he | hr'
      · rw [he]
        exact hk
      · intro hcon
        exact ih hr' (Finset.mem_insert_of_mem hcon)

/-- The vertex subsets of the produced records are pairwise distinct. -/
theorem dedupGo_nodes_distinct (g : NXGraph) (L : List (ℕ × List (ℕ × ℕ)))
    (inds : Finset (Finset ℕ)) :
    (dedupGo g L inds).Pairwise (fun a b => a.nodes ≠ b.nodes) := by
  induction L generalizing inds with
  | nil => simp [dedupGo]
  | cons x rest ih =>
    obtain ⟨id, m⟩ := x
    simp only [dedupGo]
    by_cases hk : image m ∈ inds
    · rw [if_pos hk]
      exact ih inds
    · rw [if_neg hk]
      refine List.pairwise_cons.2 ⟨?_, ih _⟩
      intro r hr hcon
      have := dedupGo_not_seen hr
      exact this (hcon ▸ Finset.mem_insert_self _ _)

/-- Each produced record is attributed to the first entry of the stream whose
assignment has the record's vertex subset as its image. -/
theorem dedupGo_attribution {g : NXGraph} {L : List (ℕ × List (ℕ × ℕ))}
    {inds : Finset (Finset ℕ)} {r : MatchResult} (hr : r ∈ dedupGo g L inds) :
    ∃ m, L.find? (fun x => decide (image x.2 = r.nodes)) = some (r.subgraph_id, m) := by
  induction L generalizing inds with
  | nil => simp [dedupGo] at hr
  | cons x rest ih =>
    obtain ⟨id, m⟩ := x
    simp only [dedupGo] at hr
    by_cases hk : image m ∈ inds
    · rw [if_pos hk] at hr
      have hne : image m ≠ r.nodes := by
        intro he
        exact dedupGo_not_seen hr (he ▸ hk)
      rw [List.find?_cons_of_neg _ (by simpa using hne)]
      exact ih hr
    · rw [if_neg hk] at hr
      rcases List.mem_cons.1 hr with he | hr'
      · rw [he]
        refine ⟨m, ?_⟩
        rw [List.find?_cons_of_pos _ (by simp [mkResult])]
        rfl
      · have hne : image m ≠ r.nodes := by
          intro he
          exact dedupGo_not_seen hr' (he ▸ Finset.mem_insert_self _ _)
        rw [List.find?_cons_of_neg _ (by simpa using hne)]
        exact ih hr'

/-- If the stream has an entry whose image is a subset `S` not yet seen, then
the dedup loop produces the record for `S` built from the first such entry. -/
theorem dedupGo_complete {g : NXGraph} {L : List (ℕ × List (ℕ × ℕ))}
    {inds : Finset (Finset ℕ)} {S : Finset ℕ} (hS : S ∉ inds) {id₀ : ℕ}
    {m₀ : List (ℕ × ℕ)}
    (hf : L.find? (fun x => decide (image x.2 = S)) = some (id₀, m₀)) :
    mkResult g id₀ S ∈ dedupGo g L inds := by
  induction L generalizing inds with
  | nil => simp at hf
  | cons x rest ih =>
    obtain ⟨id, m⟩ := x
    simp only [dedupGo]
    by_cases hpred : image m = S
    · rw [List.find?_cons_of_pos _ (by simpa using hpred)] at hf
      obtain ⟨he1, he2⟩ : id = id₀ ∧ m = m₀ := by
        constructor <;> [exact congrArg Prod.fst (Option.some.inj hf);
          exact congrArg Prod.snd (Option.some.inj hf)]
      rw [if_neg (hpred ▸ hS)]
      rw [← he1, ← hpred]
      exact List.mem_cons_self _ _
    · rw [List.find?_cons_of_neg _ (by simpa using hpred)] at hf
      by_cases hk : image m ∈ inds
      · rw [if_pos hk]
        exact ih hS hf
      · rw [if_neg hk]
        refine List.mem_cons_of_mem _ (ih ?_ hf)
        intro hcon
        rcases Finset.mem_insert.1 hcon with he | hin
        · exact hpred he.symm
        · exact hS hin

/-- Attribution flattens: the first entry of the flattened stream whose image
is `S` belongs to the first pattern, in library order, that has an assignment
with image `S`. -/
theorem allMatches_find?_fst (g : NXGraph) (pats : List (ℕ × NXGraph)) (S : Finset ℕ) :
    ((allMatches g pats).find? (fun x => decide (image x.2 = S))).map Prod.fst
      = ((pats.find? (fun x => (matchesList g x.2).any (fun m => decide (image m = S)))).map
          Prod.fst) := by
  induction pats with
  | nil => simp [allMatches]
  | cons x rest ih =>
    obtain ⟨id, P⟩ := x
    simp only [allMatches, List.flatMap_cons] at *
    rw [List.find?_append, List.find?_map]
    have hcomp : ((fun x : ℕ × List (ℕ × ℕ) => decide (image x.2 = S)) ∘
        fun m => (id, m)) = fun m => decide (image m = S) := rfl
    rw [hcomp]
    by_cases hany : (matchesList g P).any (fun m => decide (image m = S)) = true
    · obtain ⟨m₀, hm₀⟩ := Option.isSome_iff_exists.1 (List.find?_isSome.2 (by
        obtain ⟨m, hm, hmS⟩ := List.any_eq_true.1 hany
        exact ⟨m, hm, hmS⟩))
      rw [hm₀, List.find?_cons_of_pos (p := fun x : ℕ × NXGraph =>
        (matchesList g x.2).any (fun m => decide (image m = S))) rest hany]
      rfl
    · have hnone : (matchesList g P).find? (fun m => decide (image m = S)) = none := by
        rw [List.find?_eq_none]
        intro m hm hmS
        exact hany (List.any_eq_true.2 ⟨m, hm, hmS⟩)
      rw [hnone, List.find?_cons_of_neg (p := fun x : ℕ × NXGraph =>
        (matchesList g x.2).any (fun m => decide (image m = S))) rest hany]
      exact ih

/-! ## Structural invariants of graphs built by `_get_graph` -/

/-- Well-formedness of a built networkx graph: no duplicate nodes, and every
stored edge's endpoints are nodes. -/
structure GoodGraph (g : NXGraph) : Prop where
  nodes_nodup : g.nodes.Nodup
  edge_fst : ∀ e ∈ g.edges, e.1 ∈ g.nodes
  edge_snd : ∀ e ∈ g.edges, e.2 ∈ g.nodes

theorem addNodeNX_nodes_sub (g : NXGraph) (u : ℕ) : g.nodes ⊆ (addNodeNX g u).nodes := by
  unfold addNodeNX
  split
  · exact fun _ h => h
  · exact fun a h => List.mem_append_left _ h

theorem addNodeNX_mem (g : NXGraph) (u : ℕ) : u ∈ (addNodeNX g u).nodes := by
  unfold addNodeNX
  split
  · assumption
  · exact List.mem_append_right _ (List.mem_singleton.2 rfl)

theorem addNodeNX_edges (g : NXGraph) (u : ℕ) : (addNodeNX g u).edges = g.edges := by
  unfold addNodeNX
  split <;> rfl

theorem addNodeNX_good {g : NXGraph} (hg : GoodGraph g) (u : ℕ) :
    GoodGraph (addNodeNX g u) := by
  refine ⟨?_, ?_, ?_⟩
  · unfold addNodeNX
    split
    · exact hg.nodes_nodup
    · rename_i hnm
      simpa [List.nodup_append] using ⟨hg.nodes_nodup, hnm⟩
  · intro e he
    rw [addNodeNX_edges] at he
    exact addNodeNX_nodes_sub g u (hg.edge_fst e he)
  · intro e he
    rw [addNodeNX_edges] at he
    exact addNodeNX_nodes_sub g u (hg.edge_snd e he)

theorem addEdgeNX_nodes_sub (g : NXGraph) (u v : ℕ) :
    g.nodes ⊆ (addEdgeNX g u v).nodes := by
  unfold addEdgeNX
  intro a ha
  have h1 := addNodeNX_nodes_sub (addNodeNX g u) v (addNodeNX_nodes_sub g u ha)
  split <;> exact h1

theorem addEdgeNX_mem_fst (g : NXGraph) (u v : ℕ) : u ∈ (addEdgeNX g u v).nodes := by
  unfold addEdgeNX
  have h1 := addNodeNX_nodes_sub (addNodeNX g u) v (addNodeNX_mem g u)
  split <;> exact h1

theorem addEdgeNX_mem_snd (g : NXGraph) (u v : ℕ) : v ∈ (addEdgeNX g u v).nodes := by
  unfold addEdgeNX
  have h1 := addNodeNX_mem (addNodeNX g u) v
  split <;> exact h1

theorem addEdgeNX_edges_sub (g : NXGraph) (u v : ℕ) :
    ∀ e ∈ (addEdgeNX g u v).edges, e ∈ g.edges ∨ e = normPair u v := by
  unfold addEdgeNX
  intro e he
  split at he
  · rw [addNodeNX_edges, addNodeNX_edges] at he
    exact Or.inl he
  · rcases List.mem_append.1 he with h | h
    · rw [addNodeNX_edges, addNodeNX_edges] at h
      exact Or.inl h
    · exact Or.inr (List.mem_singleton.1 h)

theorem normPair_fst_mem (u v : ℕ) : (normPair u v).1 = u ∨ (normPair u v).1 = v := by
  unfold normPair
  split
  · exact Or.inr rfl
  · exact Or.inl rfl

theorem normPair_snd_mem (u v : ℕ) : (normPair u v).2 = u ∨ (normPair u v).2 = v := by
  unfold normPair
  split
  · exact Or.inl rfl
  · exact Or.inr rfl

theorem addEdgeNX_good {g : NXGraph} (hg : GoodGraph g) (u v : ℕ) :
    GoodGraph (addEdgeNX g u v) := by
  have hgood2 : GoodGraph (addNodeNX (addNodeNX g u) v) :=
    addNodeNX_good (addNodeNX_good hg u) v
  refine ⟨?_, ?_, ?_⟩
  · show (addEdgeNX g u v).nodes.Nodup
    unfold addEdgeNX
    split <;> exact hgood2.nodes_nodup
  · intro e he
    rcases addEdgeNX_edges_sub g u v e he with h | h
    · exact addEdgeNX_nodes_sub g u v (hg.edge_fst e h)
    · rcases normPair_fst_mem u v with h1 | h1
      · rw [h, h1]
        exact addEdgeNX_mem_fst g u v
      · rw [h, h1]
        exact addEdgeNX_mem_snd g u v
  · intro e he
    rcases addEdgeNX_edges_sub g u v e he with h | h
    · exact addEdgeNX_nodes_sub g u v (hg.edge_snd e h)
    · rcases normPair_snd_mem u v with h1 | h1
      · rw [h, h1]
        exact addEdgeNX_mem_fst g u v
      · rw [h, h1]
        exact addEdgeNX_mem_snd g u v

theorem foldl_addNodeNX_good {l : List ℕ} {g : NXGraph} (hg : GoodGraph g) :
    GoodGraph (l.foldl addNodeNX g) := by
  induction l generalizing g with
  | nil => exact hg
  | cons a l ih => exact ih (addNodeNX_good hg a)

theorem foldl_addEdgeNX_good {l : List (ℕ × ℕ)} {g : NXGraph} (hg : GoodGraph g) :
    GoodGraph (l.foldl (fun g e => addEdgeNX g e.1 e.2) g) := by
  induction l generalizing g with
  | nil => exact hg
  | cons a l ih => exact ih (addEdgeNX_good hg a.1 a.2)

/-- Every graph built by `_get_graph` is well formed. -/
theorem get_graph_good (db : DB) (gid : ℕ) : GoodGraph (get_graph db gid) := by
  unfold get_graph
  exact foldl_addEdgeNX_good (foldl_addNodeNX_good ⟨List.nodup_nil, by simp, by simp⟩)

theorem foldl_addEdgeNX_nodes_sub {l : List (ℕ × ℕ)} {g : NXGraph} :
    g.nodes ⊆ (l.foldl (fun g e => addEdgeNX g e.1 e.2) g).nodes := by
  induction l generalizing g with
  | nil => exact fun _ h => h
  | cons a l ih => exact fun x hx => ih (addEdgeNX_nodes_sub g a.1 a.2 hx)

/-- Endpoints of every processed edge pair end up among the nodes. -/
theorem foldl_addEdgeNX_endpoints {l : List (ℕ × ℕ)} {g : NXGraph} {u v : ℕ}
    (h : (u, v) ∈ l) :
    u ∈ (l.foldl (fun g e => addEdgeNX g e.1 e.2) g).nodes ∧
    v ∈ (l.foldl (fun g e => addEdgeNX g e.1 e.2) g).nodes := by
  induction l generalizing g with
  | nil => simp at h
  | cons a l ih =>
    rcases List.mem_cons.1 h with he | hm
    · rw [List.foldl_cons, ← he]
      exact ⟨foldl_addEdgeNX_nodes_sub (addEdgeNX_mem_fst g u v),
        foldl_addEdgeNX_nodes_sub (addEdgeNX_mem_snd g u v)⟩
    · rw [List.foldl_cons]
      exact ih hm

/-! ## Connecting the query to the aggregator -/

theorem get_induced_subgraphs_eq (db : DB) :
    get_induced_subgraphs db =
      dedupGo (get_graph db 0) (allMatches (get_graph db 0) (isoPats db)) ∅ := rfl

theorem allMatches_mem {g : NXGraph} {pats : List (ℕ × NXGraph)}
    {x : ℕ × List (ℕ × ℕ)} (hx : x ∈ allMatches g pats) :
    ∃ y ∈ pats, x.1 = y.1 ∧ x.2 ∈ matchesList g y.2 := by
  obtain ⟨y, hy, hx2⟩ := List.mem_flatMap.1 hx
  obtain ⟨m, hm, he⟩ := List.mem_map.1 hx2
  refine ⟨y, hy, ?_, ?_⟩
  · rw [← he]
  · rw [← he]
    exact hm

theorem isoPats_mem {db : DB} {y : ℕ × NXGraph} (hy : y ∈ isoPats db) :
    y.2 = get_graph db y.1 := by
  obtain ⟨i, hi, he⟩ := List.mem_map.1 hy
  rw [← he]

/-- C1: Soundness of enumeration — for every record returned by
`get_induced_subgraphs`, there is a bijection between the vertices of the
pattern graph identified by the record's `subgraph_id` and the record's
vertex subset of the host (graph 0), preserving adjacency and non-adjacency
exactly. -/
theorem soundness_of_enumeration (db : DB) (r : MatchResult)
    (hr : r ∈ get_induced_subgraphs db) :
    ∃ f : ℕ → ℕ,
      Set.BijOn f ↑(get_graph db r.subgraph_id).nodes.toFinset ↑r.nodes ∧
      ∀ a ∈ (get_graph db r.subgraph_id).nodes,
        ∀ b ∈ (get_graph db r.subgraph_id).nodes,
          hasEdge (get_graph db r.subgraph_id) a b
            = hasEdge (get_graph db 0) (f a) (f b) := by
  rw [get_induced_subgraphs_eq] at hr
  obtain ⟨x, hx, hre⟩ := dedupGo_sound hr
  obtain ⟨y, hy, hfst, hm⟩ := allMatches_mem hx
  have hy2 := isoPats_mem hy
  have hid : r.subgraph_id = y.1 := by rw [hre, ← hfst]; rfl
  have hnodes : r.nodes = image x.2 := by rw [hre]; rfl
  rw [hid, hnodes, ← hy2]
  have hp : y.2.nodes.Nodup := by
    rw [hy2]
    exact (get_graph_good db y.1).nodes_nodup
  have hh : (get_graph db 0).nodes.Nodup := (get_graph_good db 0).nodes_nodup
  obtain ⟨hbij, hadj⟩ := matchesList_sound hp hh hm
  exact ⟨alookup x.2, hbij, hadj⟩

/-- C1 witness at the concrete path/edge database. -/
theorem soundness_of_enumeration_witness :
    (⟨1, {1, 2}, {(1, 2)}⟩ : MatchResult) ∈ get_induced_subgraphs exDB1 ∧
    (∃ f : ℕ → ℕ,
      Set.BijOn f ↑(get_graph exDB1 1).nodes.toFinset ↑({1, 2} : Finset ℕ) ∧
      ∀ a ∈ (get_graph exDB1 1).nodes, ∀ b ∈ (get_graph exDB1 1).nodes,
        hasEdge (get_graph exDB1 1) a b = hasEdge (get_graph exDB1 0) (f a) (f b)) :=
  ⟨by decide, soundness_of_enumeration exDB1 ⟨1, {1, 2}, {(1, 2)}⟩ (by decide)⟩

/-- Among records with pairwise distinct vertex subsets, at most one record
can carry a given subset. -/
theorem pairwise_ne_filter_len {l : List MatchResult} {S : Finset ℕ}
    (h : l.Pairwise (fun a b => a.nodes ≠ b.nodes)) :
    (l.filter (fun r => decide (r.nodes = S))).length ≤ 1 := by
  induction l with
  | nil => simp
  | cons a l ih =>
    obtain ⟨hhead, htail⟩ := List.pairwise_cons.1 h
    rw [List.filter_cons]
    by_cases ha : a.nodes = S
    · rw [if_pos (by simpa using ha)]
      have hnil : l.filter (fun r => decide (r.nodes = S)) = [] := by
        rw [List.filter_eq_nil_iff]
        intro b hb
        simp only [decide_eq_true_eq]
        intro hbS
        exact hhead b hb (ha.trans hbS.symm)
      rw [hnil]
      simp
    · rw [if_neg (by simpa using ha)]
      exact ih htail

/-- C2: Completeness of enumeration — every vertex subset `S` of the host
whose induced subgraph is isomorphic to some pattern of the library appears
in exactly one record, and that record is attributed to the earliest pattern,
in library iteration order, that has a valid induced assignment onto `S`. -/
theorem completeness_of_enumeration (db : DB) (S : Finset ℕ)
    (hS : ∀ v ∈ S, v ∈ (get_graph db 0).nodes)
    (hiso : ∃ x ∈ isoPats db, InducedIso (get_graph db 0) x.2 S) :
    ((get_induced_subgraphs db).filter (fun r => decide (r.nodes = S))).length = 1 ∧
    ∀ r ∈ get_induced_subgraphs db, r.nodes = S →
      ((isoPats db).find? (fun x => (matchesList (get_graph db 0) x.2).any
          (fun m => decide (image m = S)))).map Prod.fst = some r.subgraph_id := by
  obtain ⟨x, hx, hiso'⟩ := hiso
  have hh := (get_graph_good db 0).nodes_nodup
  have hp : x.2.nodes.Nodup := by
    rw [isoPats_mem hx]
    exact (get_graph_good db x.1).nodes_nodup
  obtain ⟨m, hm, hmS⟩ := matchesList_complete hp hh hS hiso'
  have hstream : (x.1, m) ∈ allMatches (get_graph db 0) (isoPats db) :=
    List.mem_flatMap.2 ⟨x, hx, List.mem_map.2 ⟨m, hm, rfl⟩⟩
  have hsome : ((allMatches (get_graph db 0) (isoPats db)).find?
      (fun y => decide (image y.2 = S))).isSome :=
    List.find?_isSome.2 ⟨(x.1, m), hstream, by simpa using hmS⟩
  obtain ⟨⟨id₀, m₀⟩, hfind⟩ := Option.isSome_iff_exists.1 hsome
  have hmem0 : mkResult (get_graph db 0) id₀ S ∈ get_induced_subgraphs db := by
    rw [get_induced_subgraphs_eq]
    exact dedupGo_complete (by simp) hfind
  constructor
  · refine Nat.le_antisymm (pairwise_ne_filter_len ?_) ?_
    · rw [get_induced_subgraphs_eq]
      exact dedupGo_nodes_distinct ..
    · have hmemf : mkResult (get_graph db 0) id₀ S ∈
          (get_induced_subgraphs db).filter (fun r => decide (r.nodes = S)) :=
        List.mem_filter.2 ⟨hmem0, by simp [mkResult]⟩
      exact Nat.succ_le_of_lt (List.length_pos.2 (List.ne_nil_of_mem hmemf))
  · intro r hr hrS
    rw [get_induced_subgraphs_eq] at hr
    obtain ⟨m', hm'⟩ := dedupGo_attribution hr
    rw [← hrS, ← allMatches_find?_fst, hm']
    rfl

/-- C2 witness at the concrete path/edge database, for the subset {1, 2}. -/
theorem completeness_of_enumeration_witness :
    ((∀ v ∈ ({1, 2} : Finset ℕ), v ∈ (get_graph exDB1 0).nodes) ∧
      ∃ x ∈ isoPats exDB1, InducedIso (get_graph exDB1 0) x.2 {1, 2}) ∧
    ((get_induced_subgraphs exDB1).filter
        (fun r => decide (r.nodes = ({1, 2} : Finset ℕ)))).length = 1 ∧
    ∀ r ∈ get_induced_subgraphs exDB1, r.nodes = {1, 2} →
      ((isoPats exDB1).find? (fun x => (matchesList (get_graph exDB1 0) x.2).any
          (fun m => decide (image m = ({1, 2} : Finset ℕ))))).map Prod.fst
        = some r.subgraph_id := by
  have hiso : ∃ x ∈ isoPats exDB1, InducedIso (get_graph exDB1 0) x.2 ({1, 2} : Finset ℕ) := by
    refine ⟨(1, get_graph exDB1 1), by decide, ?_⟩
    have hm : [(10, 1), (11, 2)] ∈ matchesList (get_graph exDB1 0) (get_graph exDB1 1) := by
      decide
    have hsnd := matchesList_sound (by decide) (by decide) hm
    have himg : image [(10, 1), (11, 2)] = ({1, 2} : Finset ℕ) := by decide
    exact ⟨alookup [(10, 1), (11, 2)], by rw [← himg]; exact hsnd.1, hsnd.2⟩
  exact ⟨⟨by decide, hiso⟩, completeness_of_enumeration exDB1 {1, 2} (by decide) hiso⟩

/-- C4: Global first-wins deduplication — the vertex subsets of the returned
records are pairwise distinct, and every record is attributed to the first
pattern, in library iteration order, that has an assignment onto its subset
(so a later pattern or later assignment never overrides an earlier one). -/
theorem global_first_wins (db : DB) :
    (get_induced_subgraphs db).Pairwise (fun a b => a.nodes ≠ b.nodes) ∧
    ∀ r ∈ get_induced_subgraphs db,
      ((isoPats db).find? (fun x => (matchesList (get_graph db 0) x.2).any
          (fun m => decide (image m = r.nodes)))).map Prod.fst = some r.subgraph_id := by
  constructor
  · rw [get_induced_subgraphs_eq]
    exact dedupGo_nodes_distinct ..
  · intro r hr
    rw [get_induced_subgraphs_eq] at hr
    obtain ⟨m', hm'⟩ := dedupGo_attribution hr
    rw [← allMatches_find?_fst, hm']
    rfl

/-- C4 witness at the concrete path/edge database. -/
theorem global_first_wins_witness :
    (get_induced_subgraphs exDB1).Pairwise (fun a b => a.nodes ≠ b.nodes) ∧
    ((isoPats exDB1).find? (fun x => (matchesList (get_graph exDB1 0) x.2).any
        (fun m => decide (image m = ({1, 2} : Finset ℕ))))).map Prod.fst = some 1 :=
  ⟨(global_first_wins exDB1).1,
    (global_first_wins exDB1).2 ⟨1, {1, 2}, {(1, 2)}⟩ (by decide)⟩

/-- No assignment exists when the pattern has more vertices than the pool. -/
theorem injAssign_nil_of_short {ps hs : List ℕ} (h : hs.length < ps.length) :
    injAssign ps hs = [] := by
  induction ps generalizing hs with
  | nil => simp at h
  | cons p ps ih =>
    simp only [injAssign]
    rw [List.flatMap_eq_nil_iff]
    intro a ha
    rw [ih ?_]
    · rfl
    · rw [List.length_erase_of_mem ha]
      have : 0 < hs.length := List.length_pos.2 (List.ne_nil_of_mem ha)
      simp only [List.length_cons] at h
      omega

/-- C6: Size rejection — a pattern with more vertices than the host yields an
empty match sequence. -/
theorem size_rejection (h p : NXGraph) (hgt : h.nodes.length < p.nodes.length) :
    matchesList h p = [] := by
  unfold matchesList
  rw [injAssign_nil_of_short hgt]
  rfl

/-- C6 witness: the 2-vertex pattern graph of the example database as host,
the 3-vertex host as pattern. -/
theorem size_rejection_witness :
    (get_graph exDB1 1).nodes.length < (get_graph exDB1 0).nodes.length ∧
    matchesList (get_graph exDB1 1) (get_graph exDB1 0) = [] :=
  ⟨by decide, size_rejection _ _ (by decide)⟩

/-- C7: Induced edge set of each result — the `edges` field of every returned
record is exactly the set of host edges with both endpoints in the record's
vertex subset. -/
theorem induced_edges_exact (db : DB) (r : MatchResult)
    (hr : r ∈ get_induced_subgraphs db) :
    r.edges = (get_graph db 0).edges.toFinset.filter
      (fun e => e.1 ∈ r.nodes ∧ e.2 ∈ r.nodes) := by
  rw [get_induced_subgraphs_eq] at hr
  obtain ⟨x, hx, hre⟩ := dedupGo_sound hr
  have hgood := get_graph_good db 0
  have hed : r.edges = (subgraphEdges (get_graph db 0) (image x.2)).toFinset := by
    rw [hre, mkResult]
  have hnodes : r.nodes = image x.2 := by
    rw [hre, mkResult]
  rw [hed, hnodes]
  ext e
  simp only [subgraphEdges, List.mem_toFinset, List.mem_filter, Finset.mem_filter,
    Bool.and_eq_true, decide_eq_true_eq]
  constructor
  · rintro ⟨he, ⟨⟨⟨h1, -⟩, h2⟩, -⟩⟩
    exact ⟨he, h1, h2⟩
  · rintro ⟨he, h1, h2⟩
    exact ⟨he, ⟨⟨⟨h1, by simpa using hgood.edge_fst e he⟩, h2⟩,
      by simpa using hgood.edge_snd e he⟩⟩

/-- C7 witness at the concrete path/edge database. -/
theorem induced_edges_exact_witness :
    (⟨1, {1, 2}, {(1, 2)}⟩ : MatchResult) ∈ get_induced_subgraphs exDB1 ∧
    ({(1, 2)} : Finset (ℕ × ℕ)) = (get_graph exDB1 0).edges.toFinset.filter
      (fun e => e.1 ∈ ({1, 2} : Finset ℕ) ∧ e.2 ∈ ({1, 2} : Finset ℕ)) :=
  ⟨by decide, induced_edges_exact exDB1 ⟨1, {1, 2}, {(1, 2)}⟩ (by decide)⟩

/-- C5 counterexample: a database holding only an `iso` document for id 1 has
a zero-vertex host, yet the output is non-empty — the empty pattern matches
via the empty assignment and produces one record. -/
theorem empty_inputs_counterexample :
    (get_graph exDB0 0).nodes = [] ∧ get_induced_subgraphs exDB0 ≠ [] := by decide

/-- C5 amended: an empty pattern library yields an empty output; a host with
zero vertices yields an empty output provided every pattern in the library
has at least one vertex. -/
theorem empty_inputs_amended (db : DB)
    (h : isoIds db = [] ∨ ((get_graph db 0).nodes = [] ∧
      ∀ i ∈ isoIds db, (get_graph db i).nodes ≠ [])) :
    get_induced_subgraphs db = [] := by
  rw [get_induced_subgraphs_eq]
  rcases h with h | ⟨hhost, hpat⟩
  · rw [show isoPats db = [] by simp [isoPats, h]]
    rfl
  · have hall : allMatches (get_graph db 0) (isoPats db) = [] := by
      rw [allMatches, List.flatMap_eq_nil_iff]
      intro x hx
      have hxpat : x.2 = get_graph db x.1 := isoPats_mem hx
      have hxid : x.1 ∈ isoIds db := by
        obtain ⟨i, hi, he⟩ := List.mem_map.1 hx
        rw [← he]
        exact hi
      have hne : x.2.nodes ≠ [] := by
        rw [hxpat]
        exact hpat x.1 hxid
      have hnil : matchesList (get_graph db 0) x.2 = [] := by
        unfold matchesList
        rw [hhost]
        rcases hxn : x.2.nodes with - | ⟨a, l⟩
        · exact absurd hxn hne
        · rfl
      rw [hnil]
      rfl
    rw [hall]
    rfl

/-- C5 amended witness: the empty database. -/
theorem empty_inputs_amended_witness :
    (isoIds ([] : DB) = [] ∨ ((get_graph ([] : DB) 0).nodes = [] ∧
      ∀ i ∈ isoIds ([] : DB), (get_graph ([] : DB) i).nodes ≠ [])) ∧
    get_induced_subgraphs ([] : DB) = [] :=
  ⟨Or.inl rfl, empty_inputs_amended [] (Or.inl rfl)⟩

/-- C3 counterexample: the malformed database (edge document (0, 1, 4) with
no node document for 4 in graph 0) is accepted: graph construction succeeds,
vertex 4 is silently added to the host, and the search runs and returns a
non-empty output. -/
theorem validation_counterexample :
    Doc.edge 0 1 4 ∈ exDBmal ∧ (exDBmal.filter (isNodeDoc 0 4)).length = 0 ∧
    4 ∈ (get_graph exDBmal 0).nodes ∧ get_induced_subgraphs exDBmal ≠ [] := by decide

/-- C3 amended: `_get_graph` performs no validation and never raises — the
endpoints of every edge document are silently added to the vertex set
(networkx `add_edges_from` semantics), and the search proceeds on the
resulting graph. -/
theorem no_validation_amended (db : DB) (g u v : ℕ) (h : Doc.edge g u v ∈ db) :
    u ∈ (get_graph db g).nodes ∧ v ∈ (get_graph db g).nodes := by
  have hmem : (u, v) ∈ db.filterMap (fun d => match d with
      | Doc.edge g0 u0 v0 => if g0 = g then some (u0, v0) else none
      | _ => none) :=
    List.mem_filterMap.2 ⟨Doc.edge g u v, h, by simp⟩
  exact foldl_addEdgeNX_endpoints hmem

/-- C3 amended witness at the malformed database. -/
theorem no_validation_amended_witness :
    Doc.edge 0 1 4 ∈ exDBmal ∧
    (1 ∈ (get_graph exDBmal 0).nodes ∧ 4 ∈ (get_graph exDBmal 0).nodes) :=
  ⟨by decide, no_validation_amended exDBmal 0 1 4 (by decide)⟩

/-- C9: `erase_graph(g1, None, name)` — reached from `save_main_graph` with
no graph id — computes the fresh id as one plus the maximum `g_id` over all
`node` documents, and raises `ValueError` (unhandled) whenever the database
holds no node document at all. -/
theorem erase_graph_none_max (db : DB) (g1 : ℕ) (name : Option String) :
    (db.filterMap nodeGId = [] →
      erase_graph db g1 none name
        = .error "ValueError: max() arg is an empty sequence") ∧
    (∀ mx, (db.filterMap nodeGId).max? = some mx →
      ∃ db2, erase_graph db g1 none name = .ok (db2, .gid (mx + 1))) := by
  constructor
  · intro hemp
    unfold erase_graph
    rw [if_neg (by simp), hemp]
    rfl
  · intro mx hmx
    unfold erase_graph
    rw [if_neg (by simp), hmx]
    exact ⟨_, rfl⟩

/-- C9 witness: the empty database errors; the example database has maximal
node `g_id` 1 and gets the fresh id 2. -/
theorem erase_graph_none_max_witness :
    (([] : DB).filterMap nodeGId = [] ∧
      erase_graph ([] : DB) 0 none none
        = .error "ValueError: max() arg is an empty sequence") ∧
    ((exDB1.filterMap nodeGId).max? = some 1 ∧
      ∃ db2, erase_graph exDB1 0 none none = .ok (db2, .gid 2)) :=
  ⟨⟨rfl, (erase_graph_none_max [] 0 none).1 rfl⟩,
    ⟨by decide, (erase_graph_none_max exDB1 0 none).2 1 (by decide)⟩⟩

/-- The upsert of a `properties` document never introduces an `iso` document. -/
theorem upsertProps_no_iso {db2 : DB} {g2 : ℕ} {nm : String}
    (h : Doc.iso g2 ∉ db2) : Doc.iso g2 ∉ upsertProps db2 g2 nm := by
  unfold upsertProps
  split
  · intro hcon
    obtain ⟨d, hd, he⟩ := List.mem_map.1 hcon
    split at he
    · exact Doc.noConfusion he
    · exact h (he ▸ hd)
  · intro hcon
    rcases List.mem_append.1 hcon with h1 | h1
    · exact h h1
    · simp at h1

/-- C10: `erase_graph(g1, g2, name)` with distinct concrete ids first removes
every document of `g2` (its `iso` membership included) and copies only the
non-`iso` documents of `g1`; hence afterwards `g2` has no `iso` document —
it does not belong to I, whatever the memberships were before. -/
theorem erase_graph_target_not_iso (db : DB) (g1 g2 : ℕ) (name : Option String)
    (hne : g1 ≠ g2) :
    ∃ db2, erase_graph db g1 (some g2) name = .ok (db2, .gid g2) ∧
      Doc.iso g2 ∉ db2 := by
  have hbase : Doc.iso g2 ∉ remove_graph db g2 ++
      ((remove_graph db g2).filter (fun d => d.gId = g1 && !d.isIso)).map
        (Doc.setG g2) := by
    intro hcon
    rcases List.mem_append.1 hcon with h1 | h1
    · have := (List.mem_filter.1 h1).2
      simp [Doc.gId] at this
    · obtain ⟨d, hd, he⟩ := List.mem_map.1 h1
      have hfd := (List.mem_filter.1 hd).2
      cases d with
      | iso g0 => simp [Doc.isIso] at hfd
      | node g0 u0 x0 y0 => exact Doc.noConfusion he
      | edge g0 u0 v0 => exact Doc.noConfusion he
      | props g0 n0 => exact Doc.noConfusion he
  unfold erase_graph
  rw [if_neg (by simpa using hne)]
  cases name with
  | none => exact ⟨_, rfl, hbase⟩
  | some nm => exact ⟨_, rfl, upsertProps_no_iso hbase⟩

/-- C10 witness: graph 2 is in I beforehand and no longer afterwards. -/
theorem erase_graph_target_not_iso_witness :
    (1 : ℕ) ≠ 2 ∧ ∃ db2,
      erase_graph [Doc.iso 2, Doc.node 1 5 0 0] 1 (some 2) none
        = .ok (db2, .gid 2) ∧ Doc.iso 2 ∉ db2 :=
  ⟨by decide, erase_graph_target_not_iso [Doc.iso 2, Doc.node 1 5 0 0] 1 2 none
    (by decide)⟩

/-! ## Theory of the editing layer -/

theorem isNodeDoc_eq {g u : ℕ} {d : Doc} :
    isNodeDoc g u d = true ↔ ∃ x y, d = Doc.node g u x y := by
  cases d with
  | node g0 u0 x0 y0 =>
    simp only [isNodeDoc, Bool.and_eq_true, decide_eq_true_eq, Doc.node.injEq]
    aesop
  | edge g0 u0 v0 => simp [isNodeDoc]
  | iso g0 => simp [isNodeDoc]
  | props g0 n0 => simp [isNodeDoc]

theorem isEdgeDoc_eq {g u v : ℕ} {d : Doc} :
    isEdgeDoc g u v d = true ↔ d = Doc.edge g u v := by
  cases d with
  | node g0 u0 x0 y0 => simp [isEdgeDoc]
  | edge g0 u0 v0 =>
    simp only [isEdgeDoc, Bool.and_eq_true, decide_eq_true_eq, Doc.edge.injEq]
    aesop
  | iso g0 => simp [isEdgeDoc]
  | props g0 n0 => simp [isEdgeDoc]

theorem any_isNodeDoc_iff {db : DB} {g u : ℕ} :
    db.any (isNodeDoc g u) = true ↔ ∃ x y, Doc.node g u x y ∈ db := by
  rw [List.any_eq_true]
  constructor
  · rintro ⟨d, hd, hnd⟩
    obtain ⟨x, y, rfl⟩ := isNodeDoc_eq.1 hnd
    exact ⟨x, y, hd⟩
  · rintro ⟨x, y, hd⟩
    exact ⟨Doc.node g u x y, hd, isNodeDoc_eq.2 ⟨x, y, rfl⟩⟩

theorem chk_edge_iff {db : DB} {g u v : ℕ} :
    chk db (Doc.edge g u v) = true ↔
      u < v ∧ (∃ x y, Doc.node g u x y ∈ db) ∧ (∃ x y, Doc.node g v x y ∈ db) ∧
        db.countP (isEdgeDoc g u v) ≤ 1 := by
  simp only [chk, Bool.and_eq_true, decide_eq_true_eq, any_isNodeDoc_iff]
  tauto

theorem chk_node_iff {db : DB} {g u : ℕ} {x y : ℤ} :
    chk db (Doc.node g u x y) = true ↔ db.countP (isNodeDoc g u) ≤ 1 := by
  simp [chk]

/-- Under the invariant, node documents are unique per (graph, node) pair. -/
theorem inv_node_uniq {db : DB} (hI : DBInv db) (g u : ℕ) :
    db.countP (isNodeDoc g u) ≤ 1 := by
  by_cases h : 0 < db.countP (isNodeDoc g u)
  · obtain ⟨d, hd, hnd⟩ := List.countP_pos_iff.1 h
    obtain ⟨x, y, rfl⟩ := isNodeDoc_eq.1 hnd
    exact chk_node_iff.1 (hI _ hd)
  · omega

/-- Under the invariant, edge documents are unique per (graph, u, v) triple. -/
theorem inv_edge_uniq {db : DB} (hI : DBInv db) (g u v : ℕ) :
    db.countP (isEdgeDoc g u v) ≤ 1 := by
  by_cases h : 0 < db.countP (isEdgeDoc g u v)
  · obtain ⟨d, hd, hnd⟩ := List.countP_pos_iff.1 h
    obtain rfl := isEdgeDoc_eq.1 hnd
    exact (chk_edge_iff.1 (hI _ hd)).2.2.2
  · omega

theorem countP_or_disjoint {l : DB} {p q : Doc → Bool}
    (h : ∀ a ∈ l, ¬(p a = true ∧ q a = true)) :
    l.countP (fun a => p a || q a) = l.countP p + l.countP q := by
  induction l with
  | nil => simp
  | cons a l ih =>
    have hrec := ih (fun b hb => h b (List.mem_cons_of_mem a hb))
    have hha := h a (List.mem_cons_self a l)
    rw [List.countP_cons, List.countP_cons, List.countP_cons, hrec]
    by_cases hp : p a = true <;> by_cases hq : q a = true <;>
      simp [hp, hq] at hha ⊢ <;> omega

theorem countP_singleton_le_one (p : Doc → Bool) (d : Doc) :
    ([d] : DB).countP p ≤ 1 := by
  rw [List.countP_cons]
  split <;> simp

theorem countP_singleton_zero {p : Doc → Bool} {d : Doc} (h : p d = false) :
    ([d] : DB).countP p = 0 := by
  rw [List.countP_cons, if_neg (by simp [h])]
  rfl

/-- The operation `add_node` preserves the storage invariant. -/
theorem add_node_inv {db : DB} (hI : DBInv db) (g : ℕ) (u : ℕ) (x y : ℤ) :
    DBInv (add_node db g u x y).1 := by
  unfold add_node
  split
  · rename_i hlen
    have hcnt : db.countP (isNodeDoc g u) = 0 := by
      rw [List.countP_eq_length_filter]
      exact hlen
    intro d hd
    rcases List.mem_append.1 hd with hdb | hnew
    · have hc := hI d hdb
      cases d with
      | edge g0 u0 v0 =>
        rw [chk_edge_iff] at hc ⊢
        obtain ⟨h1, ⟨x1, y1, h2⟩, ⟨x2, y2, h3⟩, h4⟩ := hc
        refine ⟨h1, ⟨x1, y1, List.mem_append_left _ h2⟩,
          ⟨x2, y2, List.mem_append_left _ h3⟩, ?_⟩
        rw [List.countP_append, countP_singleton_zero (by simp [isEdgeDoc])]
        omega
      | node g0 u0 x0 y0 =>
        rw [chk_node_iff] at hc ⊢
        rw [List.countP_append]
        have hpred : isNodeDoc g0 u0 (Doc.node g u x y) = false := by
          rw [Bool.eq_false_iff]
          intro hcon
          obtain ⟨x', y', he⟩ := isNodeDoc_eq.1 hcon
          injection he with hg hu hx hy
          subst hg
          subst hu
          have : 0 < db.countP (isNodeDoc g u) :=
            List.countP_pos_iff.2 ⟨Doc.node g u x0 y0, hdb, isNodeDoc_eq.2 ⟨x0, y0, rfl⟩⟩
          omega
        rw [countP_singleton_zero hpred]
        omega
      | iso g0 => rfl
      | props g0 n0 => rfl
    · rw [List.mem_singleton.1 hnew]
      rw [chk_node_iff, List.countP_append, hcnt]
      have := countP_singleton_le_one (isNodeDoc g u) (Doc.node g u x y)
      omega
  · exact hI

/-- The operation `add_edge` preserves the storage invariant. -/
theorem add_edge_inv {db : DB} (hI : DBInv db) (g u v : ℕ) :
    DBInv (add_edge db g u v).1 := by
  unfold add_edge
  split
  · exact hI
  · rename_i huv
    dsimp only
    set u' := if v < u then v else u with hu'
    set v' := if v < u then u else v with hv'
    have hlt : u' < v' := by
      rw [hu', hv']
      split <;> omega
    split
    · exact hI
    · rename_i hcount2
      split
      · rename_i hedge0
        show DBInv (db ++ [Doc.edge g u' v'])
        have hedgecnt : db.countP (isEdgeDoc g u' v') = 0 := by
          rw [List.countP_eq_length_filter]
          exact hedge0
        have hcnt2 : db.countP (fun d => isNodeDoc g u' d || isNodeDoc g v' d) = 2 := by
          rw [List.countP_eq_length_filter]
          omega
        have hdisj : ∀ a ∈ db, ¬(isNodeDoc g u' a = true ∧ isNodeDoc g v' a = true) := by
          rintro a ha ⟨h1, h2⟩
          obtain ⟨x1, y1, rfl⟩ := isNodeDoc_eq.1 h1
          obtain ⟨x2, y2, he⟩ := isNodeDoc_eq.1 h2
          injection he with hg hu hx hy
          omega
        have hsplit := countP_or_disjoint hdisj
        have hle1 := inv_node_uniq hI g u'
        have hle2 := inv_node_uniq hI g v'
        have hcu : 0 < db.countP (isNodeDoc g u') := by omega
        have hcv : 0 < db.countP (isNodeDoc g v') := by omega
        obtain ⟨d1, hd1, hp1⟩ := List.countP_pos_iff.1 hcu
        obtain ⟨d2, hd2, hp2⟩ := List.countP_pos_iff.1 hcv
        obtain ⟨x1, y1, rfl⟩ := isNodeDoc_eq.1 hp1
        obtain ⟨x2, y2, rfl⟩ := isNodeDoc_eq.1 hp2
        intro d hd
        rcases List.mem_append.1 hd with hdb | hnew
        · have hc := hI d hdb
          cases d with
          | edge g0 u0 v0 =>
            rw [chk_edge_iff] at hc ⊢
            obtain ⟨h1, ⟨x3, y3, h2⟩, ⟨x4, y4, h3⟩, h4⟩ := hc
            refine ⟨h1, ⟨x3, y3, List.mem_append_left _ h2⟩,
              ⟨x4, y4, List.mem_append_left _ h3⟩, ?_⟩
            rw [List.countP_append]
            have hpred : isEdgeDoc g0 u0 v0 (Doc.edge g u' v') = false := by
              rw [Bool.eq_false_iff]
              intro hcon
              have he := isEdgeDoc_eq.1 hcon
              injection he with hg hu hv
              rw [hg, hu, hv] at hedgecnt
              have : 0 < db.countP (isEdgeDoc g0 u0 v0) :=
                List.countP_pos_iff.2 ⟨Doc.edge g0 u0 v0, hdb, isEdgeDoc_eq.2 rfl⟩
              omega
            rw [countP_singleton_zero hpred]
            omega
          | node g0 u0 x0 y0 =>
            rw [chk_node_iff] at hc ⊢
            rw [List.countP_append, countP_singleton_zero (by simp [isNodeDoc])]
            omega
          | iso g0 => rfl
          | props g0 n0 => rfl
        · rw [List.mem_singleton.1 hnew]
          rw [chk_edge_iff]
          refine ⟨hlt, ⟨x1, y1, List.mem_append_left _ hd1⟩,
            ⟨x2, y2, List.mem_append_left _ hd2⟩, ?_⟩
          rw [List.countP_append, hedgecnt]
          have := countP_singleton_le_one (isEdgeDoc g u' v') (Doc.edge g u' v')
          omega
      · exact hI

theorem countP_filter_le (p q : Doc → Bool) (l : DB) :
    (l.filter q).countP p ≤ l.countP p :=
  (List.filter_sublist l).countP_le p

/-- The operation `remove_node` preserves the storage invariant. -/
theorem remove_node_inv {db : DB} (hI : DBInv db) (g u : ℕ) :
    DBInv (remove_node db g u).1 := by
  unfold remove_node
  dsimp only
  split
  · show DBInv ((db.filter (fun d => !isNodeDoc g u d)).filter (fun d => match d with
      | .edge g0 u0 v0 => !(g0 = g && (u0 = u || v0 = u))
      | _ => true))
    intro d hd
    obtain ⟨hd1, hdP⟩ := List.mem_filter.1 hd
    obtain ⟨hdb, hq⟩ := List.mem_filter.1 hd1
    have hnodemem : ∀ (a b : ℕ) (x' y' : ℤ), Doc.node a b x' y' ∈ db →
        ¬(a = g ∧ b = u) →
        Doc.node a b x' y' ∈ (db.filter (fun d => !isNodeDoc g u d)).filter
          (fun d => match d with
            | .edge g0 u0 v0 => !(g0 = g && (u0 = u || v0 = u))
            | _ => true) := by
      intro a b x' y' hmem hne
      refine List.mem_filter.2 ⟨List.mem_filter.2 ⟨hmem, ?_⟩, by simp⟩
      simp only [isNodeDoc, Bool.not_eq_true', Bool.and_eq_false_iff,
        decide_eq_false_iff_not]
      tauto
    have hc := hI d hdb
    cases d with
    | edge g0 u0 v0 =>
      have hdP' : ¬(g0 = g ∧ (u0 = u ∨ v0 = u)) := by
        have h' : ¬g0 = g ∨ ¬u0 = u ∧ ¬v0 = u := by simpa using hdP
        tauto
      rw [chk_edge_iff] at hc ⊢
      obtain ⟨h1, ⟨x1, y1, h2⟩, ⟨x2, y2, h3⟩, h4⟩ := hc
      refine ⟨h1, ⟨x1, y1, hnodemem g0 u0 x1 y1 h2 ?_⟩,
        ⟨x2, y2, hnodemem g0 v0 x2 y2 h3 ?_⟩, ?_⟩
      · rintro ⟨rfl, rfl⟩
        exact hdP' ⟨rfl, Or.inl rfl⟩
      · rintro ⟨rfl, rfl⟩
        exact hdP' ⟨rfl, Or.inr rfl⟩
      · calc ((db.filter (fun d => !isNodeDoc g u d)).filter (fun d => match d with
            | .edge g0 u0 v0 => !(g0 = g && (u0 = u || v0 = u))
            | _ => true)).countP (isEdgeDoc g0 u0 v0)
            ≤ (db.filter (fun d => !isNodeDoc g u d)).countP (isEdgeDoc g0 u0 v0) :=
              countP_filter_le ..
          _ ≤ db.countP (isEdgeDoc g0 u0 v0) := countP_filter_le ..
          _ ≤ 1 := h4
    | node g0 u0 x0 y0 =>
      rw [chk_node_iff] at hc ⊢
      calc ((db.filter (fun d => !isNodeDoc g u d)).filter (fun d => match d with
          | .edge g0 u0 v0 => !(g0 = g && (u0 = u || v0 = u))
          | _ => true)).countP (isNodeDoc g0 u0)
          ≤ (db.filter (fun d => !isNodeDoc g u d)).countP (isNodeDoc g0 u0) :=
            countP_filter_le ..
        _ ≤ db.countP (isNodeDoc g0 u0) := countP_filter_le ..
        _ ≤ 1 := hc
    | iso g0 => rfl
    | props g0 n0 => rfl
  · exact hI

/-- The operation `remove_edge` preserves the storage invariant. -/
theorem remove_edge_inv {db : DB} (hI : DBInv db) (g u v : ℕ) :
    DBInv (remove_edge db g u v).1 := by
  unfold remove_edge
  split
  · exact hI
  · dsimp only
    set u' := if v < u then v else u with hu'
    set v' := if v < u then u else v with hv'
    show DBInv (db.filter (fun d => !isEdgeDoc g u' v' d))
    intro d hd
    obtain ⟨hdb, hq⟩ := List.mem_filter.1 hd
    have hc := hI d hdb
    cases d with
    | edge g0 u0 v0 =>
      rw [chk_edge_iff] at hc ⊢
      obtain ⟨h1, ⟨x1, y1, h2⟩, ⟨x2, y2, h3⟩, h4⟩ := hc
      refine ⟨h1, ⟨x1, y1, List.mem_filter.2 ⟨h2, by simp [isEdgeDoc]⟩⟩,
        ⟨x2, y2, List.mem_filter.2 ⟨h3, by simp [isEdgeDoc]⟩⟩, ?_⟩
      calc (db.filter (fun d => !isEdgeDoc g u' v' d)).countP (isEdgeDoc g0 u0 v0)
          ≤ db.countP (isEdgeDoc g0 u0 v0) := countP_filter_le ..
        _ ≤ 1 := h4
    | node g0 u0 x0 y0 =>
      rw [chk_node_iff] at hc ⊢
      calc (db.filter (fun d => !isEdgeDoc g u' v' d)).countP (isNodeDoc g0 u0)
          ≤ db.countP (isNodeDoc g0 u0) := countP_filter_le ..
        _ ≤ 1 := hc
    | iso g0 => rfl
    | props g0 n0 => rfl

/-- C8: Edge-set invariant of the editing layer — starting from any state
satisfying the storage invariant (in particular the empty database), any
sequence of `add_node`, `add_edge`, `remove_node`, `remove_edge` operations
preserves it: stored edges are normalised with distinct endpoints (no
self-loop, no two edges with the same unordered pair) and both endpoints
stored as nodes; and `add_edge` returns `False` leaving the database
unchanged when the endpoints are equal, when an endpoint is not a node of the
graph, or when the edge already exists. -/
theorem editing_layer_edge_invariant :
    (∀ (db : DB), DBInv db → ∀ ops : List EditOp, DBInv (ops.foldl applyOp db)) ∧
    DBInv ([] : DB) ∧
    (∀ (db : DB) (g u v : ℕ), DBInv db →
      (u = v ∨ (¬∃ x y, Doc.node g u x y ∈ db) ∨ (¬∃ x y, Doc.node g v x y ∈ db) ∨
        Doc.edge g (min u v) (max u v) ∈ db) →
      add_edge db g u v = (db, false)) := by
  refine ⟨?_, ?_, ?_⟩
  · intro db hI ops
    induction ops generalizing db with
    | nil => exact hI
    | cons op ops ih =>
      rw [List.foldl_cons]
      refine ih _ ?_
      cases op with
      | addN g u x y => exact add_node_inv hI g u x y
      | addE g u v => exact add_edge_inv hI g u v
      | rmN g u => exact remove_node_inv hI g u
      | rmE g u v => exact remove_edge_inv hI g u v
  · intro d hd
    simp at hd
  · intro db g u v hI hcase
    by_cases huv : u = v
    · unfold add_edge
      rw [if_pos huv]
    · have hcase' : (¬∃ x y, Doc.node g u x y ∈ db) ∨ (¬∃ x y, Doc.node g v x y ∈ db) ∨
          Doc.edge g (min u v) (max u v) ∈ db := by
        rcases hcase with h | h | h | h
        · exact absurd h huv
        · exact Or.inl h
        · exact Or.inr (Or.inl h)
        · exact Or.inr (Or.inr h)
      unfold add_edge
      rw [if_neg huv]
      dsimp only
      set u' := if v < u then v else u with hu'
      set v' := if v < u then u else v with hv'
      have humin : u' = min u v := by
        rw [hu']
        split <;> omega
      have hvmax : v' = max u v := by
        rw [hv']
        split <;> omega
      have hne' : u' ≠ v' := by omega
      have hdisj : ∀ a ∈ db, ¬(isNodeDoc g u' a = true ∧ isNodeDoc g v' a = true) := by
        rintro a ha ⟨h1, h2⟩
        obtain ⟨x1, y1, rfl⟩ := isNodeDoc_eq.1 h1
        obtain ⟨x2, y2, he⟩ := isNodeDoc_eq.1 h2
        injection he with hg hu hx hy
        omega
      have hlenor : (db.filter (fun d => isNodeDoc g u' d || isNodeDoc g v' d)).length
          = db.countP (isNodeDoc g u') + db.countP (isNodeDoc g v') := by
        rw [← List.countP_eq_length_filter]
        exact countP_or_disjoint hdisj
      rcases hcase' with hmiss | hmiss | hex
      · have hzero : db.countP (isNodeDoc g u) = 0 := by
          rw [List.countP_eq_zero]
          intro d hd hnd
          obtain ⟨x, y, rfl⟩ := isNodeDoc_eq.1 hnd
          exact hmiss ⟨x, y, hd⟩
        have hswap : db.countP (isNodeDoc g u') + db.countP (isNodeDoc g v')
            = db.countP (isNodeDoc g u) + db.countP (isNodeDoc g v) := by
          rw [hu', hv']
          split <;> omega
        have hle := inv_node_uniq hI g v
        rw [if_pos (by omega)]
      · have hzero : db.countP (isNodeDoc g v) = 0 := by
          rw [List.countP_eq_zero]
          intro d hd hnd
          obtain ⟨x, y, rfl⟩ := isNodeDoc_eq.1 hnd
          exact hmiss ⟨x, y, hd⟩
        have hswap : db.countP (isNodeDoc g u') + db.countP (isNodeDoc g v')
            = db.countP (isNodeDoc g u) + db.countP (isNodeDoc g v) := by
          rw [hu', hv']
          split <;> omega
        have hle := inv_node_uniq hI g u
        rw [if_pos (by omega)]
      · have hpos : 0 < db.countP (isEdgeDoc g u' v') := by
          refine List.countP_pos_iff.2 ⟨Doc.edge g (min u v) (max u v), hex, ?_⟩
          rw [humin, hvmax]
          exact isEdgeDoc_eq.2 rfl
        have hlene : (db.filter (isEdgeDoc g u' v')).length
            = db.countP (isEdgeDoc g u' v') := (List.countP_eq_length_filter ..).symm
        by_cases hfirst : (db.filter (fun d => isNodeDoc g u' d || isNodeDoc g v' d)).length ≠ 2
        · rw [if_pos hfirst]
        · rw [if_neg hfirst, if_neg (by omega)]

/-- C8 witness: a concrete editing session from the empty database, and a
rejected self-loop insertion. -/
theorem editing_layer_edge_invariant_witness :
    DBInv (([EditOp.addN 0 1 0 0, EditOp.addN 0 2 0 0, EditOp.addN 0 3 0 0,
      EditOp.addE 0 1 2, EditOp.addE 0 2 3, EditOp.rmN 0 3,
      EditOp.rmE 0 1 2, EditOp.addE 0 1 2] : List EditOp).foldl applyOp ([] : DB)) ∧
    DBInv ([] : DB) ∧
    add_edge [Doc.node 0 1 0 0] 0 1 1 = ([Doc.node 0 1 0 0], false) :=
  ⟨editing_layer_edge_invariant.1 [] (by decide) _,
    editing_layer_edge_invariant.2.1,
    editing_layer_edge_invariant.2.2 [Doc.node 0 1 0 0] 0 1 1 (by decide) (Or.inl rfl)⟩
